import Mathlib

/-!
Shallow embedding of `src/resultdownloader.py`, a scraper that extracts a
race-results table from HTML pages, follows server-side pagination,
merges/deduplicates rows, normalizes columns and writes a CSV.

Modelling conventions:
* A pandas `DataFrame` is a `DF`: an ordered list of column names and an
  ordered list of rows, each row an ordered list of string cell values
  (pandas `NaN` entries, which `to_csv` serializes as empty fields, are
  modelled as the empty string; `astype(str)` is the identity here since
  all values are already strings).
* HTML parsing (pandas `read_html`, BeautifulSoup) is abstracted: a page
  is the list of candidate tables produced by `read_html` (`none` for the
  `ValueError` raised when no table exists) together with the list of
  anchor elements in document order.
* Python's `urllib.parse.urljoin` is modelled faithfully after the CPython
  implementation (RFC 3986 merge), for URLs without `;`-params.
* Python whitespace (`str.strip`, regex `\s`) is modelled by the ASCII
  whitespace characters; `str.lower` by ASCII lowercasing.
-/

namespace ResultDownloader

/-- ASCII whitespace, as matched by Python `str.strip()` and regex `\s`. -/
def pyWs (c : Char) : Bool :=
  c = ' ' || c = '\t' || c = '\n' || c = '\x0d' || c = '\x0b' || c = '\x0c'

/-- Left strip of a character list (Python `lstrip`). -/
def lstripL (l : List Char) : List Char := l.dropWhile pyWs

/-- Strip of a character list (Python `str.strip()`): drop leading and
trailing whitespace. -/
def stripL (l : List Char) : List Char :=
  List.rdropWhile pyWs (l.dropWhile pyWs)

/-- Python `str.strip()` on strings. -/
def pyStrip (s : String) : String := String.mk (stripL s.data)

/-- Python `str.lower()` (ASCII part). -/
def pyLower (s : String) : String := String.mk (s.data.map Char.toLower)

/-- Whether the list contains two consecutive whitespace characters,
i.e. whether Python's regex `\s{2,}` matches somewhere. -/
def hasDouble : List Char → Bool
  | c1 :: c2 :: rest => (pyWs c1 && pyWs c2) || hasDouble (c2 :: rest)
  | _ => false

/-- The prefix of the list before the first occurrence of two consecutive
whitespace characters (the whole list if there is none): the part kept by
`re.split(r"\s{2,}", s, maxsplit=1)[0]`. -/
def beforeDouble : List Char → List Char
  | c1 :: c2 :: rest =>
      if pyWs c1 && pyWs c2 then [] else c1 :: beforeDouble (c2 :: rest)
  | l => l

/-- `s.split(r"\s{2,}", n=1).str[0].str.strip()` on a single value:
text before the first double-whitespace run, stripped. -/
def cleanL (l : List Char) : List Char := stripL (beforeDouble l)

/-- The Name-cell cleanup from `normalize_name_column`, on one value. -/
def cleanName (s : String) : String := String.mk (cleanL s.data)

/-- A pandas DataFrame: ordered column names and ordered rows of cells. -/
structure DF where
  cols : List String
  rows : List (List String)
deriving DecidableEq, Repr

/-- Label-based cell lookup (pandas `df[name]` for one row): the value in
the first column called `name`, empty if the column is missing. -/
def cellVal (cols : List String) (r : List String) (name : String) : String :=
  match cols, r with
  | [], _ => ""
  | c :: cs, vs => if c = name then vs.headD "" else cellVal cs vs.tail name

/-- Index of the first column with the given label (`list.index` style;
returns the length when absent). -/
def colIdx (name : String) : List String → Nat
  | [] => 0
  | c :: cs => if c = name then 0 else colIdx name cs + 1

/-- `df.columns = [str(c).strip() for c in df.columns]`. -/
def stripColsDF (df : DF) : DF := ⟨df.cols.map pyStrip, df.rows⟩

/-- pandas `DataFrame.empty`: true when either axis has length zero. -/
def dfEmpty (df : DF) : Bool := df.rows.isEmpty || df.cols.isEmpty

/-- The fixed token set `typical_headers` from `extract_results_table`
(a Python set with these nine distinct elements). -/
def typical_headers : List String :=
  ["Pos", "No", "Name", "Year of Birth", "Time", "Status", "Club", "UCI-ID", "Pace"]

/-- Python substring test `needle in hay` (case-sensitive). -/
def isSubstr (needle hay : String) : Bool :=
  (List.range (hay.data.length + 1)).any fun i => needle.data.isPrefixOf (hay.data.drop i)

/-- The score of a candidate table's (already stripped) column names:
the number of distinct typical tokens occurring as a substring of at
least one column name. -/
def scoreCols (cols : List String) : Nat :=
  (typical_headers.filter fun t => cols.any fun c => isSubstr t c).length

/-- Score of a table (after column stripping, as in the source loop). -/
def scoreDF (df : DF) : Nat := scoreCols df.cols

/-- The scoring loop of `extract_results_table`: for each table, strip the
column labels, score them, and keep the table iff its score is strictly
greater than the best score so far (initially `-1`). -/
def pickBest : List DF → Option DF × Int → Option DF × Int
  | [], acc => acc
  | df :: rest, (best, bestScore) =>
      let df1 := stripColsDF df
      let s : Int := (scoreDF df1 : Int)
      if s > bestScore then pickBest rest (some df1, s) else pickBest rest (best, bestScore)

/-- Python `max(tables, key=len)`: first table with maximal row count. -/
def maxByLen (ts : List DF) : DF :=
  ts.foldl (fun best df => if df.rows.length > best.rows.length then df else best)
    (ts.headD ⟨[], []⟩)

/-- `extract_results_table`: `none` models the `ValueError` of
`pd.read_html` (no tables); otherwise run the scoring loop, with the
source's defensive fallback to the largest table. -/
def extract_results_table (tables? : Option (List DF)) : Option DF :=
  match tables? with
  | none => none
  | some tables =>
    match (pickBest tables (none, (-1 : Int))).1 with
    | some df => some df
    | none => if tables.isEmpty then none else some (stripColsDF (maxByLen tables))

/-! ### Model of `urllib.parse.urljoin` (CPython, no `;`-params) -/

/-- Characters allowed in a URL scheme after the first letter. -/
def isSchemeChar (c : Char) : Bool :=
  c.isAlpha || c.isDigit || c = '+' || c = '-' || c = '.'

/-- `l.split(sep, 1)`: the part before the first occurrence of `c` and,
when `c` occurs, the part after it. -/
def splitFirst (c : Char) : List Char → List Char × Option (List Char)
  | [] => ([], none)
  | x :: xs =>
      if x = c then ([], some xs)
      else
        let r := splitFirst c xs
        (x :: r.1, r.2)

/-- Parsed URL components (scheme, netloc, path, query, fragment). -/
structure UrlParts where
  scheme : List Char
  netloc : List Char
  path : List Char
  query : List Char
  frag : List Char
deriving DecidableEq, Repr

/-- `url[:i].lower(), url[i+1:]` when a valid scheme precedes the first
colon, as in CPython `urlsplit`; otherwise no scheme. -/
def extractScheme (l : List Char) : List Char × List Char :=
  match splitFirst ':' l with
  | (pre, some rest) =>
      match pre with
      | [] => ([], l)
      | c0 :: _ =>
          if c0.isAlpha && pre.all isSchemeChar then (pre.map Char.toLower, rest)
          else ([], l)
  | (_, none) => ([], l)

/-- CPython `urlsplit` (components; `;`-params left inside the path). -/
def urlsplitL (url : List Char) : UrlParts :=
  let sr := extractScheme url
  let nr : List Char × List Char :=
    match sr.2 with
    | '/' :: '/' :: r =>
        (r.takeWhile (fun c => !(c = '/' || c = '?' || c = '#')),
         r.dropWhile (fun c => !(c = '/' || c = '?' || c = '#')))
    | r => ([], r)
  let fr := splitFirst '#' nr.2
  let frag := fr.2.getD []
  let qr := splitFirst '?' fr.1
  ⟨sr.1, nr.1, qr.1, qr.2.getD [], frag⟩

/-- CPython `urlunsplit`. -/
def urlunsplitL (u : UrlParts) : List Char :=
  let url := u.path
  let url :=
    if u.netloc ≠ [] || url.take 2 = ['/', '/'] then
      let url1 := if url ≠ [] && url.head? ≠ some '/' then '/' :: url else url
      '/' :: '/' :: (u.netloc ++ url1)
    else url
  let url := if u.scheme ≠ [] then u.scheme ++ ':' :: url else url
  let url := if u.query ≠ [] then url ++ '?' :: u.query else url
  if u.frag ≠ [] then url ++ '#' :: u.frag else url

/-- `path.split('/')` (never empty; `''.split('/') == ['']`). -/
def splitSeg : List Char → List (List Char)
  | [] => [[]]
  | c :: rest =>
      if c = '/' then [] :: splitSeg rest
      else
        match splitSeg rest with
        | s :: ss => (c :: s) :: ss
        | [] => [[c]]

/-- `'/'.join(segments)`. -/
def joinSlash : List (List Char) → List Char
  | [] => []
  | [x] => x
  | x :: y :: rest => x ++ '/' :: joinSlash (y :: rest)

/-- `segments[1:-1] = filter(None, segments[1:-1])`: drop empty segments
except in first and last position. -/
def keepEndsFilter : List (List Char) → List (List Char)
  | [] => []
  | [x] => [x]
  | x :: y :: rest =>
      x :: (((y :: rest).dropLast.filter (fun s => s ≠ [])) ++ [(y :: rest).getLastD []])

/-- Schemes for which relative resolution applies (`uses_relative`). -/
def usesRelative : List String :=
  ["", "ftp", "http", "gopher", "nntp", "imap", "wais", "file", "https",
   "shttp", "mms", "prospero", "rtsp", "rtspu", "sftp", "svn", "svn+ssh", "ws", "wss"]

/-- Schemes with a network location (`uses_netloc`). -/
def usesNetloc : List String :=
  ["", "ftp", "http", "gopher", "nntp", "telnet", "imap", "wais", "file", "mms",
   "https", "shttp", "snews", "prospero", "rtsp", "rtspu", "rsync", "svn",
   "svn+ssh", "sftp", "nfs", "git", "git+ssh", "ws", "wss", "itms-services"]

/-- CPython `urljoin` on character lists (paths without `;`-params). -/
def urljoinL (base url : List Char) : List Char :=
  if base = [] then url
  else if url = [] then base
  else
    let b := urlsplitL base
    let r := urlsplitL url
    let scheme := if r.scheme = [] then b.scheme else r.scheme
    if scheme ≠ b.scheme || !(usesRelative.contains (String.mk scheme)) then url
    else if usesNetloc.contains (String.mk scheme) && r.netloc ≠ [] then
      urlunsplitL ⟨scheme, r.netloc, r.path, r.query, r.frag⟩
    else
      let netloc := if usesNetloc.contains (String.mk scheme) then b.netloc else r.netloc
      if r.path = [] then
        urlunsplitL ⟨scheme, netloc, b.path,
          (if r.query = [] then b.query else r.query), r.frag⟩
      else
        let baseParts0 := splitSeg b.path
        let baseParts :=
          if baseParts0.getLastD [] ≠ [] then baseParts0.dropLast else baseParts0
        let segs :=
          if r.path.head? = some '/' then splitSeg r.path
          else keepEndsFilter (baseParts ++ splitSeg r.path)
        let resolved := segs.foldl
          (fun acc seg =>
            if seg = ['.', '.'] then acc.dropLast
            else if seg = ['.'] then acc
            else acc ++ [seg]) []
        let resolved :=
          if segs.getLastD [] = ['.'] || segs.getLastD [] = ['.', '.'] then
            resolved ++ [[]]
          else resolved
        let joined := joinSlash resolved
        urlunsplitL ⟨scheme, netloc, (if joined = [] then ['/'] else joined), r.query, r.frag⟩

/-- `urllib.parse.urljoin` on strings. -/
def urljoin (base url : String) : String := String.mk (urljoinL base.data url.data)

/-! ### Pagination detector (`find_next_page_url`) -/

/-- An anchor element of the parsed page: whether `soup.find("a", rel="next")`
matches it, its `href` attribute (`none` when absent) and its visible text. -/
structure Anchor where
  relNext : Bool
  href : Option String
  text : String
deriving DecidableEq, Repr

/-- The fixed list `possible_texts` of next-page phrases. -/
def possible_texts : List String :=
  ["next", "next »", "next page", ">", "›", ">>", "more", "weiter", "nächste"]

/-- Python truthiness of `a.get("href")`: an absent or empty attribute is
falsy. -/
def hrefTruthy : Option String → Bool
  | none => false
  | some s => decide (s ≠ "")

/-- `soup.find("a", rel="next")`: the first matching anchor. -/
def findRelNext : List Anchor → Option Anchor
  | [] => none
  | a :: rest => if a.relNext then some a else findRelNext rest

/-- The text-based scan (`for a in soup.find_all("a"): ...`): first anchor
whose stripped lowercased text is a next-page phrase and whose `href` is
truthy. -/
def textFallback (cur : String) : List Anchor → Option String
  | [] => none
  | a :: rest =>
      if possible_texts.contains (pyLower (pyStrip a.text)) && hrefTruthy a.href then
        some (urljoin cur (a.href.getD ""))
      else textFallback cur rest

/-- `find_next_page_url`: prefer a `rel="next"` anchor with a truthy
`href`; otherwise fall back to the text-based scan; `none` when nothing
matches. -/
def find_next_page_url (anchors : List Anchor) (cur : String) : Option String :=
  match findRelNext anchors with
  | some a =>
      if hrefTruthy a.href then some (urljoin cur (a.href.getD ""))
      else textFallback cur anchors
  | none => textFallback cur anchors

/-! ### Scrape loop, merger/deduplicator, normalizer, writer, main -/

/-- The abstract content of a fetched page: the candidate tables produced
by `pd.read_html` (`none` models its `ValueError` when no table parses)
and the anchors found by BeautifulSoup, in document order. -/
structure Page where
  tables : Option (List DF)
  anchors : List Anchor

/-- The `while` loop of `scrape_all_pages`, with explicit fuel.  Returns
the accumulated frames together with the trace of fetched URLs.  The
visited set is extended with the URL immediately before the fetch, and the
loop condition `url and url not in visited` is checked first (a falsy
`None` or empty-string URL also stops the loop). -/
def scrapeGo (world : String → Page) :
    Nat → List String → List DF → Option String → List DF × List String
  | 0, _, acc, _ => (acc, [])
  | Nat.succ fuel, visited, acc, urlOpt =>
    match urlOpt with
    | none => (acc, [])
    | some url =>
      if url = "" then (acc, [])
      else if url ∈ visited then (acc, [])
      else
        let page := world url
        let df? := extract_results_table page.tables
        let acc1 :=
          match df? with
          | some df => if dfEmpty df then acc else acc ++ [stripColsDF df]
          | none => acc
        let next := find_next_page_url page.anchors url
        let r := scrapeGo world fuel (url :: visited) acc1 next
        (r.1, url :: r.2)

/-- `[c for c in big.columns if c.lower() in ("pos", "no", "name")]`. -/
def idCols (cols : List String) : List String :=
  cols.filter fun c => ["pos", "no", "name"].contains (pyLower c)

/-- The dedup key of a row: its values in the identity columns. -/
def keyOf (cols : List String) (dedupCols : List String) (r : List String) : List String :=
  dedupCols.map (cellVal cols r)

/-- `drop_duplicates(subset=...)` with `keep="first"`: keep a row iff its
key has not been seen earlier. -/
def dropDupGo (key : List String → List String) (seen : List (List String)) :
    List (List String) → List (List String)
  | [] => []
  | r :: rest =>
      if key r ∈ seen then dropDupGo key seen rest
      else r :: dropDupGo key (key r :: seen) rest

/-- The merger/deduplicator step of `scrape_all_pages`: when at least one
identity column exists, drop rows duplicating an earlier row on exactly
those columns. -/
def dedupDF (big : DF) : DF :=
  let dcols := idCols big.cols
  if dcols = [] then big
  else ⟨big.cols, dropDupGo (keyOf big.cols dcols) [] big.rows⟩

/-- The deduplication as the spec words it: keep each row and remove every
later row that agrees with it on the identity-column key (first occurrence
kept).  Used as the specification side for the dedup step. -/
def firstOccur (key : List String → List String) : List (List String) → List (List String)
  | [] => []
  | r :: rest => r :: firstOccur key (rest.filter fun x => key x ≠ key r)
termination_by l => l.length
decreasing_by
  simp only [List.length_cons]
  exact Nat.lt_succ_of_le (List.length_filter_le _ _)

/-- Append the columns of one frame to the accumulated column list,
keeping first-appearance order without duplicates (pandas `concat` with
`sort=False`). -/
def unionAppend (acc : List String) (cs : List String) : List String :=
  cs.foldl (fun a c => if c ∈ a then a else a ++ [c]) acc

/-- The column set of `pd.concat(frames)`: union of all column names in
order of first appearance. -/
def concatCols (frames : List DF) : List String :=
  frames.foldl (fun acc f => unionAppend acc f.cols) []

/-- Reindexing of one row to the concatenated column list: values of
present columns are kept, missing columns take the empty value (pandas
`NaN`, which serializes as an empty field). -/
def rowIn (allCols : List String) (f : DF) (r : List String) : List String :=
  allCols.map fun c => if c ∈ f.cols then cellVal f.cols r c else ""

/-- `pd.concat(all_frames, ignore_index=True)`: rows in table order then
intra-table order, each reindexed to the united column list. -/
def concatDF (frames : List DF) : DF :=
  let cols := concatCols frames
  ⟨cols, (frames.map fun f => f.rows.map (rowIn cols f)).flatten⟩

/-- `scrape_all_pages`: run the loop, return the empty frame when nothing
was found, otherwise concatenate and deduplicate. -/
def scrape_all_pages (world : String → Page) (fuel : Nat) (start : String) : DF :=
  let frames := (scrapeGo world fuel [] [] (some start)).1
  if frames.isEmpty then ⟨[], []⟩
  else dedupDF (concatDF frames)

/-- The fixed `REQUESTED_COLUMNS` list (17 entries, in output order). -/
def REQUESTED_COLUMNS : List String :=
  ["Pos", "No", "Name", "Year of Birth", "Time", "Diff", "Cat", "Cat Pos",
   "Cat Diff", "⚤", "⚤ Pos", "⚤ Diff", "Club", "Pace", "City", "Status", "UCI-ID"]

/-- The per-row effect of the `df["Name"] = ...` assignment: replace the
cell in the first column labelled `Name` by its cleaned value. -/
def nameUpd (cols : List String) (r : List String) : List String :=
  r.set (colIdx "Name" cols) (cleanName (r.getD (colIdx "Name" cols) ""))

/-- `normalize_name_column`: when a `Name` column exists, clean every
value in it; otherwise leave the frame unchanged. -/
def normalize_name_column (df : DF) : DF :=
  if "Name" ∈ df.cols then ⟨df.cols, df.rows.map (nameUpd df.cols)⟩ else df

/-- The `for col in REQUESTED_COLUMNS: if col not in df.columns:
df[col] = ""` loop: append each missing requested column with empty
values. -/
def addMissing (df : DF) : DF :=
  REQUESTED_COLUMNS.foldl
    (fun d c =>
      if c ∈ d.cols then d else ⟨d.cols ++ [c], d.rows.map (· ++ [""])⟩)
    df

/-- `select_and_order_columns`: materialize missing requested columns,
clean the `Name` column, then project onto `REQUESTED_COLUMNS` in order
(label-based selection `df[REQUESTED_COLUMNS]`). -/
def select_and_order_columns (df : DF) : DF :=
  let df1 := addMissing df
  let df2 := normalize_name_column df1
  ⟨REQUESTED_COLUMNS, df2.rows.map fun r => REQUESTED_COLUMNS.map (cellVal df2.cols r)⟩

/-- The observable outcome of a run of `main`: process exit code, the
messages printed to standard out/err, and the frame handed to the writer
(`none` when `write_csv` is never invoked). -/
structure MainOutcome where
  exitCode : Nat
  stdoutMsg : Option String
  stderrMsg : Option String
  written : Option DF
deriving DecidableEq, Repr

/-- `main`: scrape all pages; on an empty result print a diagnostic to
standard error and exit 1 without writing; otherwise normalize, write the
CSV, report the row count and destination on standard out, and exit 0. -/
def main_run (world : String → Page) (fuel : Nat) (url outFile : String) : MainOutcome :=
  let df_all := scrape_all_pages world fuel url
  if dfEmpty df_all then
    ⟨1, none, some "No data found: could not locate a suitable results table.", none⟩
  else
    let df_final := select_and_order_columns df_all
    ⟨0, some ("Wrote " ++ toString df_final.rows.length ++ " rows to " ++ outFile),
      none, some df_final⟩

/-! ## Helper lemmas: whitespace runs, strip, Name cleanup -/

theorem dropWhile_prefix_self {p : Char → Bool} {a b : List Char} (hab : b <+: a)
    (ha : a.dropWhile p = a) : b.dropWhile p = b := by
  cases b with
  | nil => rfl
  | cons c b1 =>
    obtain ⟨t, ht⟩ := hab
    subst ht
    rw [List.cons_append, List.dropWhile_cons] at ha
    by_cases hc : p c = true
    · rw [if_pos hc] at ha
      have hlen := congrArg List.length ha
      have hle : (List.dropWhile p (b1 ++ t)).length ≤ (b1 ++ t).length :=
        (List.dropWhile_sublist p).length_le
      simp only [List.length_cons, List.length_append] at hlen hle
      omega
    · rw [List.dropWhile_cons, if_neg hc]

theorem stripL_idem (l : List Char) : stripL (stripL l) = stripL l := by
  unfold stripL
  rw [dropWhile_prefix_self (List.rdropWhile_prefix pyWs (l.dropWhile pyWs))
        (List.dropWhile_idempotent _ _),
      List.rdropWhile_idempotent]

theorem hasDouble_append_right {l : List Char} (b : List Char) (h : hasDouble l = true) :
    hasDouble (l ++ b) = true := by
  induction l with
  | nil => simp [hasDouble] at h
  | cons c tl ih =>
    cases tl with
    | nil => simp [hasDouble] at h
    | cons c2 rest =>
      simp only [hasDouble, Bool.or_eq_true] at h
      simp only [List.cons_append, hasDouble, Bool.or_eq_true]
      rcases h with h | h
      · exact Or.inl h
      · exact Or.inr (ih h)

theorem hasDouble_append_left {l : List Char} (a : List Char) (h : hasDouble l = true) :
    hasDouble (a ++ l) = true := by
  induction a with
  | nil => simpa using h
  | cons c a1 ih =>
    have hne : a1 ++ l ≠ [] := by
      cases l with
      | nil => simp [hasDouble] at h
      | cons x xs => simp
    obtain ⟨y, ys, hy⟩ := List.exists_cons_of_ne_nil hne
    simp only [List.cons_append, hy, hasDouble, Bool.or_eq_true]
    exact Or.inr (hy ▸ ih)

theorem hasDouble_of_infix {x y : List Char} (hxy : x <:+: y) (h : hasDouble x = true) :
    hasDouble y = true := by
  obtain ⟨s, t, rfl⟩ := hxy
  rw [List.append_assoc]
  exact hasDouble_append_left s (hasDouble_append_right t h)

theorem stripL_within (l : List Char) : stripL l <:+: l :=
  List.IsInfix.trans (List.rdropWhile_prefix pyWs (l.dropWhile pyWs)).isInfix
    (List.dropWhile_suffix pyWs).isInfix

theorem stripL_no_double {l : List Char} (h : hasDouble l = false) :
    hasDouble (stripL l) = false := by
  by_contra hc
  rw [Bool.not_eq_false] at hc
  have h2 := hasDouble_of_infix (stripL_within l) hc
  simp [h] at h2

theorem beforeDouble_of_not {l : List Char} (h : hasDouble l = false) :
    beforeDouble l = l := by
  induction l with
  | nil => rfl
  | cons c tl ih =>
    cases tl with
    | nil => rfl
    | cons c2 rest =>
      simp only [hasDouble, Bool.or_eq_false_iff] at h
      simp only [beforeDouble, h.1, if_false, Bool.false_eq_true]
      rw [ih h.2]

theorem beforeDouble_head (l : List Char) :
    beforeDouble l = [] ∨ (beforeDouble l).head? = l.head? := by
  cases l with
  | nil => exact Or.inl rfl
  | cons c tl =>
    cases tl with
    | nil => exact Or.inr rfl
    | cons c2 rest =>
      by_cases h : (pyWs c && pyWs c2) = true
      · exact Or.inl (by simp [beforeDouble, h])
      · exact Or.inr (by simp [beforeDouble, h])

theorem hasDouble_beforeDouble (l : List Char) : hasDouble (beforeDouble l) = false := by
  induction l with
  | nil => rfl
  | cons c tl ih =>
    cases tl with
    | nil => rfl
    | cons c2 rest =>
      by_cases h : (pyWs c && pyWs c2) = true
      · simp [beforeDouble, h, hasDouble]
      · simp only [beforeDouble, h, if_false, Bool.false_eq_true]
        rcases beforeDouble_head (c2 :: rest) with h0 | h0
        · rw [h0]; rfl
        · cases hb : beforeDouble (c2 :: rest) with
          | nil => rw [hb] at h0; simp at h0
          | cons y t =>
            rw [hb] at h0
            simp only [List.head?_cons, Option.some.injEq] at h0
            subst h0
            simp only [hasDouble, Bool.or_eq_false_iff]
            refine ⟨by simpa using h, ?_⟩
            rw [← hb]
            exact ih

theorem cleanL_no_double (l : List Char) : hasDouble (cleanL l) = false :=
  stripL_no_double (hasDouble_beforeDouble l)

theorem cleanL_idem (l : List Char) : cleanL (cleanL l) = cleanL l := by
  have h := cleanL_no_double l
  show stripL (beforeDouble (cleanL l)) = cleanL l
  rw [beforeDouble_of_not h]
  exact stripL_idem _

theorem cleanName_idem (s : String) : cleanName (cleanName s) = cleanName s :=
  congrArg String.mk (cleanL_idem s.data)

theorem beforeDouble_append (pre : List Char) (c1 c2 : Char) (rest : List Char)
    (h1 : pyWs c1 = true) (h2 : pyWs c2 = true) (hp : hasDouble (pre ++ [c1]) = false) :
    beforeDouble (pre ++ c1 :: c2 :: rest) = pre := by
  induction pre with
  | nil => simp [beforeDouble, h1, h2]
  | cons p pre1 ih =>
    cases pre1 with
    | nil =>
      have hp1 : pyWs p = false := by
        simpa [hasDouble, h1] using hp
      simp [beforeDouble, hp1, h1, h2]
    | cons q pre2 =>
      have hp1 : ((pyWs p && pyWs q) = false) ∧ hasDouble ((q :: pre2) ++ [c1]) = false := by
        simpa [hasDouble, List.cons_append] using hp
      have hrec := ih hp1.2
      simp only [List.cons_append] at hrec ⊢
      simp only [beforeDouble, hp1.1, if_false, Bool.false_eq_true]
      rw [hrec]

/-! ## Helper lemmas: label-based cell access -/

theorem cellVal_nil_row (cols : List String) (name : String) : cellVal cols [] name = "" := by
  induction cols with
  | nil => rfl
  | cons c cs ih => by_cases h : c = name <;> simp [cellVal, h, ih]

theorem cellVal_getD (cols : List String) (r : List String) (name : String)
    (h : name ∈ cols) : cellVal cols r name = r.getD (colIdx name cols) "" := by
  induction cols generalizing r with
  | nil => cases h
  | cons c cs ih =>
    by_cases hc : c = name
    · cases r <;> simp [cellVal, colIdx, hc]
    · have hmem : name ∈ cs := by
        rcases List.mem_cons.mp h with h1 | h1
        · exact absurd h1.symm hc
        · exact h1
      simp only [cellVal, colIdx, if_neg hc]
      rw [ih _ hmem]
      cases r with
      | nil => simp
      | cons x xs => simp

theorem colIdx_lt (name : String) (cols : List String) (h : name ∈ cols) :
    colIdx name cols < cols.length := by
  induction cols with
  | nil => cases h
  | cons c cs ih =>
    by_cases hc : c = name
    · simp [colIdx, hc]
    · have hmem : name ∈ cs := by
        rcases List.mem_cons.mp h with h1 | h1
        · exact absurd h1.symm hc
        · exact h1
      simpa [colIdx, hc] using Nat.succ_lt_succ (ih hmem)

theorem getD_set_self (l : List String) (i : Nat) (d : String) :
    l.set i (l.getD i d) = l := by
  induction l generalizing i with
  | nil => rfl
  | cons x xs ih =>
    cases i with
    | zero => simp
    | succ n => simpa using ih n

theorem getD_set_eq (l : List String) (i : Nat) (v d : String) :
    (l.set i v).getD i d = if i < l.length then v else d := by
  induction l generalizing i with
  | nil => simp
  | cons x xs ih =>
    cases i with
    | zero => simp
    | succ n => simpa using ih n

theorem cellVal_set (cols : List String) (r : List String) (name v : String)
    (h : name ∈ cols) (hlt : colIdx name cols < r.length) :
    cellVal cols (r.set (colIdx name cols) v) name = v := by
  rw [cellVal_getD _ _ _ h, getD_set_eq, if_pos (by simpa using hlt)]

theorem cellVal_not_mem (cols : List String) (r : List String) (name : String)
    (h : name ∉ cols) : cellVal cols r name = "" := by
  induction cols generalizing r with
  | nil => rfl
  | cons c cs ih =>
    have hc : ¬(c = name) := fun hcc => h (by simp [hcc])
    simp only [cellVal, if_neg hc]
    exact ih _ (fun hm => h (List.mem_cons_of_mem _ hm))

theorem nameUpd_clean (cols : List String) (r : List String) :
    cleanName (cellVal cols (nameUpd cols r) "Name") =
      cellVal cols (nameUpd cols r) "Name" := by
  by_cases h : "Name" ∈ cols
  · rw [cellVal_getD _ _ _ h]
    unfold nameUpd
    rw [getD_set_eq]
    split
    · exact cleanName_idem _
    · rfl
  · rw [cellVal_not_mem _ _ _ h]
    rfl

/-! ## Claim theorems: C7 and C3 -/

/-- **C7**: the Name cleanup of `normalize_name_column` maps every Name
cell through `cleanName`; a value containing a run of two or more
whitespace characters becomes the stripped text before the first such run,
a value without such a run becomes its stripped self, and the spec's two
examples evaluate as stated. -/
theorem c7_name_cleanup :
    (∀ df : DF, "Name" ∈ df.cols →
        normalize_name_column df = ⟨df.cols, df.rows.map (nameUpd df.cols)⟩) ∧
    (∀ (cols r : List String), "Name" ∈ cols → colIdx "Name" cols < r.length →
        cellVal cols (nameUpd cols r) "Name" = cleanName (cellVal cols r "Name")) ∧
    (∀ (pre : List Char) (c1 c2 : Char) (rest : List Char),
        pyWs c1 = true → pyWs c2 = true → hasDouble (pre ++ [c1]) = false →
        cleanL (pre ++ c1 :: c2 :: rest) = stripL pre) ∧
    (∀ l : List Char, hasDouble l = false → cleanL l = stripL l) ∧
    cleanName "Alice Smith  Cycling Club ABC" = "Alice Smith" ∧
    cleanName "Bob Jones" = "Bob Jones" := by
  refine ⟨?_, ?_, ?_, ?_, by decide, by decide⟩
  · intro df h
    simp [normalize_name_column, h]
  · intro cols r h hlt
    unfold nameUpd
    rw [cellVal_set _ _ _ _ h hlt, cellVal_getD _ _ _ h]
  · intro pre c1 c2 rest h1 h2 hp
    show stripL (beforeDouble (pre ++ c1 :: c2 :: rest)) = stripL pre
    rw [beforeDouble_append pre c1 c2 rest h1 h2 hp]
  · intro l h
    show stripL (beforeDouble l) = stripL l
    rw [beforeDouble_of_not h]

/-- Witness for C7: the theorem applied at concrete inputs. -/
theorem c7_witness :
    normalize_name_column ⟨["Name"], [["Alice Smith  Cycling Club ABC"]]⟩ =
      ⟨["Name"], [["Alice Smith  Cycling Club ABC"]].map (nameUpd ["Name"])⟩ ∧
    cellVal ["Name"] (nameUpd ["Name"] ["Bob  Jones X"]) "Name" =
      cleanName (cellVal ["Name"] ["Bob  Jones X"] "Name") ∧
    cleanL (['A', 'b'] ++ ' ' :: ' ' :: ['C']) = stripL ['A', 'b'] :=
  ⟨c7_name_cleanup.1 _ (by decide),
   c7_name_cleanup.2.1 _ _ (by decide) (by decide),
   c7_name_cleanup.2.2.1 _ ' ' ' ' _ (by decide) (by decide) (by decide)⟩

/-- **C3** (counterexample): for current URL `https://x.test/a/b?page=1`
and relative link target `page=2`, the detector does *not* return
`https://x.test/a/b?page=2`: RFC 3986 merging replaces the last path
segment and drops the base query. -/
theorem c3_counterexample :
    find_next_page_url [{ relNext := false, href := some "page=2", text := "next" }]
        "https://x.test/a/b?page=1" ≠ some "https://x.test/a/b?page=2" := by
  decide

/-- **C3** (amended): for current URL `https://x.test/a/b?page=1` and
relative link target `page=2`, the detector returns
`https://x.test/a/page=2`. -/
theorem c3_amended_resolution :
    find_next_page_url [{ relNext := false, href := some "page=2", text := "next" }]
        "https://x.test/a/b?page=1" = some "https://x.test/a/page=2" := by
  decide

/-! ## Claim C4: the largest-table fallback is unreachable -/

theorem pickBest_fst_some (ts : List DF) (b : DF) (s : Int) :
    (pickBest ts (some b, s)).1 ≠ none := by
  induction ts generalizing b s with
  | nil => simp [pickBest]
  | cons t rest ih =>
    simp only [pickBest]
    split
    · exact ih _ _
    · exact ih _ _

theorem pickBest_start_ne_none (ts : List DF) (h : ts ≠ []) :
    (pickBest ts (none, (-1 : Int))).1 ≠ none := by
  cases ts with
  | nil => exact absurd rfl h
  | cons t rest =>
    simp only [pickBest]
    rw [if_pos (by omega : ((scoreDF (stripColsDF t) : Int) > -1))]
    exact pickBest_fst_some _ _ _

/-- **C4**: the "pick the largest table" fallback branch is unreachable:
the scoring pass returns `none` exactly when the candidate list is empty
(every score is at least 0, beating the initial best score of -1), so the
fallback condition (no best table, non-empty list) never holds, and on a
non-empty list `extract_results_table` returns the scoring pass's pick. -/
theorem c4_fallback_unreachable :
    ∀ ts : List DF,
      ((pickBest ts (none, (-1 : Int))).1 = none ↔ ts = []) ∧
      ¬((pickBest ts (none, (-1 : Int))).1 = none ∧ ts ≠ []) ∧
      (ts ≠ [] → extract_results_table (some ts) = (pickBest ts (none, (-1 : Int))).1) := by
  intro ts
  have hiff : (pickBest ts (none, (-1 : Int))).1 = none ↔ ts = [] := by
    constructor
    · intro h
      by_contra hne
      exact pickBest_start_ne_none ts hne h
    · rintro rfl
      rfl
  refine ⟨hiff, ?_, ?_⟩
  · rintro ⟨h1, h2⟩
    exact h2 (hiff.mp h1)
  · intro hne
    obtain ⟨df, hdf⟩ : ∃ df, (pickBest ts (none, (-1 : Int))).1 = some df := by
      cases hx : (pickBest ts (none, (-1 : Int))).1 with
      | none => exact absurd (hiff.mp hx) hne
      | some df => exact ⟨df, rfl⟩
    simp [extract_results_table, hdf]

/-- Witness for C4: the theorem applied to a concrete one-table list. -/
theorem c4_witness :
    (([⟨["Pos"], [["1"]]⟩] : List DF) ≠ []) ∧
    extract_results_table (some [⟨["Pos"], [["1"]]⟩]) =
      (pickBest [⟨["Pos"], [["1"]]⟩] (none, (-1 : Int))).1 :=
  ⟨by decide, (c4_fallback_unreachable _).2.2 (by decide)⟩

/-! ## Claim C10: anchors without href -/

/-- **C10**: an anchor without a link target never yields a result and
never stops the search: when the `rel="next"` anchor has no `href`,
detection falls through to the text-based scan, and during the text scan
an anchor with matching text but no `href` is skipped, with later anchors
still considered. -/
theorem c10_missing_href :
    ∀ (anchors : List Anchor) (cur : String),
      (∀ a, findRelNext anchors = some a → a.href = none →
          find_next_page_url anchors cur = textFallback cur anchors) ∧
      (∀ (pre : List Anchor) (a : Anchor) (post : List Anchor), a.href = none →
          textFallback cur (pre ++ a :: post) = textFallback cur (pre ++ post)) := by
  intro anchors cur
  constructor
  · intro a hfind hhref
    simp [find_next_page_url, hfind, hhref, hrefTruthy]
  · intro pre a post hhref
    induction pre with
    | nil =>
      simp only [List.nil_append]
      simp [textFallback, hhref, hrefTruthy]
    | cons b pre1 ih =>
      simp only [List.cons_append, textFallback, List.append_eq]
      rw [ih]

/-- Witness for C10: the theorem applied to concrete anchor lists. -/
theorem c10_witness :
    find_next_page_url
        [{ relNext := true, href := none, text := "x" },
         { relNext := false, href := some "p2", text := "next" }] "http://h/a" =
      textFallback "http://h/a"
        [{ relNext := true, href := none, text := "x" },
         { relNext := false, href := some "p2", text := "next" }] ∧
    textFallback "http://h/a"
        ([] ++ { relNext := false, href := none, text := "more" } ::
          [{ relNext := false, href := some "p2", text := "next" }]) =
      textFallback "http://h/a" ([] ++ [{ relNext := false, href := some "p2", text := "next" }]) :=
  ⟨(c10_missing_href _ _).1 { relNext := true, href := none, text := "x" } (by decide) rfl,
   (c10_missing_href [] "http://h/a").2 [] _ _ rfl⟩

/-! ## Claim C1: highest-scoring table, earliest on ties -/

theorem pickBest_argmax (ts : List DF) (bv : DF) :
    (pickBest ts (some bv, (scoreDF bv : Int)) = (some bv, (scoreDF bv : Int)) ∧
      ∀ x ∈ ts, scoreDF (stripColsDF x) ≤ scoreDF bv) ∨
    (∃ pre df post, ts = pre ++ df :: post ∧
      pickBest ts (some bv, (scoreDF bv : Int)) =
        (some (stripColsDF df), (scoreDF (stripColsDF df) : Int)) ∧
      scoreDF bv < scoreDF (stripColsDF df) ∧
      (∀ x ∈ pre, scoreDF (stripColsDF x) < scoreDF (stripColsDF df)) ∧
      (∀ x ∈ ts, scoreDF (stripColsDF x) ≤ scoreDF (stripColsDF df))) := by
  induction ts generalizing bv with
  | nil => exact Or.inl ⟨rfl, by simp⟩
  | cons t rest ih =>
    by_cases hgt : scoreDF bv < scoreDF (stripColsDF t)
    · have hstep : pickBest (t :: rest) (some bv, (scoreDF bv : Int)) =
          pickBest rest (some (stripColsDF t), (scoreDF (stripColsDF t) : Int)) := by
        simp only [pickBest]
        rw [if_pos (by exact_mod_cast hgt)]
      rcases ih (stripColsDF t) with ⟨heq, hall⟩ | ⟨pre, df, post, hts, heq, hlt, hpre, hall⟩
      · refine Or.inr ⟨[], t, rest, rfl, hstep.trans heq, hgt, by simp, ?_⟩
        intro x hx
        rcases List.mem_cons.mp hx with rfl | hx
        · exact le_refl _
        · exact hall x hx
      · refine Or.inr ⟨t :: pre, df, post, by rw [hts, List.cons_append], hstep.trans heq,
          hgt.trans hlt, ?_, ?_⟩
        · intro x hx
          rcases List.mem_cons.mp hx with rfl | hx
          · exact hlt
          · exact hpre x hx
        · intro x hx
          rcases List.mem_cons.mp hx with rfl | hx
          · exact le_of_lt hlt
          · exact hall x hx
    · have hstep : pickBest (t :: rest) (some bv, (scoreDF bv : Int)) =
          pickBest rest (some bv, (scoreDF bv : Int)) := by
        simp only [pickBest]
        rw [if_neg (fun hc => hgt (by exact_mod_cast hc))]
      rcases ih bv with ⟨heq, hall⟩ | ⟨pre, df, post, hts, heq, hlt, hpre, hall⟩
      · refine Or.inl ⟨hstep.trans heq, ?_⟩
        intro x hx
        rcases List.mem_cons.mp hx with rfl | hx
        · exact Nat.le_of_not_lt hgt
        · exact hall x hx
      · refine Or.inr ⟨t :: pre, df, post, by rw [hts, List.cons_append], hstep.trans heq, hlt, ?_, ?_⟩
        · intro x hx
          rcases List.mem_cons.mp hx with rfl | hx
          · exact lt_of_le_of_lt (Nat.le_of_not_lt hgt) hlt
          · exact hpre x hx
        · intro x hx
          rcases List.mem_cons.mp hx with rfl | hx
          · exact le_of_lt (lt_of_le_of_lt (Nat.le_of_not_lt hgt) hlt)
          · exact hall x hx

/-- **C1**: on a non-empty candidate list, `extract_results_table` returns
the (column-stripped) candidate whose score is maximal, and on ties the
earliest-parsed candidate: the chosen table's score bounds every
candidate's score, and every candidate parsed before it scores strictly
less. -/
theorem c1_best_scoring_table :
    ∀ ts : List DF, ts ≠ [] →
      ∃ pre df post, ts = pre ++ df :: post ∧
        extract_results_table (some ts) = some (stripColsDF df) ∧
        (∀ x ∈ ts, scoreDF (stripColsDF x) ≤ scoreDF (stripColsDF df)) ∧
        (∀ x ∈ pre, scoreDF (stripColsDF x) < scoreDF (stripColsDF df)) := by
  intro ts hne
  cases ts with
  | nil => exact absurd rfl hne
  | cons t rest =>
    have hstep : pickBest (t :: rest) (none, (-1 : Int)) =
        pickBest rest (some (stripColsDF t), (scoreDF (stripColsDF t) : Int)) := by
      simp only [pickBest]
      rw [if_pos (by omega)]
    rcases pickBest_argmax rest (stripColsDF t) with ⟨heq, hall⟩ |
      ⟨pre, df, post, hts, heq, hlt, hpre, hall⟩
    · have h1 : (pickBest (t :: rest) (none, (-1 : Int))).1 = some (stripColsDF t) := by
        rw [hstep, heq]
      refine ⟨[], t, rest, rfl, by simp [extract_results_table, h1], ?_, by simp⟩
      intro x hx
      rcases List.mem_cons.mp hx with rfl | hx
      · exact le_refl _
      · exact hall x hx
    · have h1 : (pickBest (t :: rest) (none, (-1 : Int))).1 = some (stripColsDF df) := by
        rw [hstep, heq]
      refine ⟨t :: pre, df, post, by rw [hts, List.cons_append], by simp [extract_results_table, h1], ?_, ?_⟩
      · intro x hx
        rcases List.mem_cons.mp hx with rfl | hx
        · exact le_of_lt hlt
        · exact hall x hx
      · intro x hx
        rcases List.mem_cons.mp hx with rfl | hx
        · exact hlt
        · exact hpre x hx

/-- Witness for C1: the theorem applied to a concrete two-table list. -/
theorem c1_witness :
    ∃ pre df post,
      ([⟨["Zzz"], [["9"]]⟩, ⟨["Pos", "Name"], [["1", "a"]]⟩] : List DF) =
        pre ++ df :: post ∧
      extract_results_table
          (some [⟨["Zzz"], [["9"]]⟩, ⟨["Pos", "Name"], [["1", "a"]]⟩]) =
        some (stripColsDF df) ∧
      (∀ x ∈ ([⟨["Zzz"], [["9"]]⟩, ⟨["Pos", "Name"], [["1", "a"]]⟩] : List DF),
          scoreDF (stripColsDF x) ≤ scoreDF (stripColsDF df)) ∧
      (∀ x ∈ pre, scoreDF (stripColsDF x) < scoreDF (stripColsDF df)) :=
  c1_best_scoring_table _ (by decide)

/-! ## Claim C2: the scrape loop never fetches a URL twice -/

theorem scrapeGo_none (world : String → Page) (fuel : Nat) (visited : List String)
    (acc : List DF) : scrapeGo world fuel visited acc none = (acc, []) := by
  cases fuel <;> rfl

theorem scrapeGo_visited (world : String → Page) (fuel : Nat) (visited : List String)
    (acc : List DF) (u : String) (h : u ∈ visited) :
    scrapeGo world fuel visited acc (some u) = (acc, []) := by
  cases fuel with
  | zero => rfl
  | succ n =>
    simp only [scrapeGo]
    by_cases he : u = ""
    · rw [if_pos he]
    · rw [if_neg he, if_pos h]

theorem scrapeGo_trace_fresh (world : String → Page) :
    ∀ (fuel : Nat) (visited : List String) (acc : List DF) (url : Option String),
      (scrapeGo world fuel visited acc url).2.Nodup ∧
      ∀ u ∈ (scrapeGo world fuel visited acc url).2, u ∉ visited := by
  intro fuel
  induction fuel with
  | zero =>
    intro visited acc url
    simp [scrapeGo]
  | succ n ih =>
    intro visited acc url
    cases url with
    | none => simp [scrapeGo]
    | some u =>
      by_cases he : u = ""
      · simp [scrapeGo, he]
      · by_cases hv : u ∈ visited
        · simp [scrapeGo, he, hv]
        · simp only [scrapeGo, if_neg he, if_neg hv]
          constructor
          · refine List.nodup_cons.mpr ⟨?_, (ih _ _ _).1⟩
            intro hmem
            exact (ih _ _ _).2 u hmem (List.mem_cons_self u visited)
          · intro x hx
            rcases List.mem_cons.mp hx with rfl | hx
            · exact hv
            · intro hxv
              exact (ih _ _ _).2 x hx (List.mem_cons_of_mem _ hxv)

theorem scrapeGo_one_step (world : String → Page) (fuel : Nat) (visited : List String)
    (acc : List DF) (u : String) (hv : u ∉ visited) (he : u ≠ "")
    (hnext : ∀ v, find_next_page_url (world u).anchors u = some v → v ∈ u :: visited) :
    (scrapeGo world (fuel + 1) visited acc (some u)).2 = [u] := by
  simp only [scrapeGo, if_neg he, if_neg hv]
  cases hn : find_next_page_url (world u).anchors u with
  | none => rw [scrapeGo_none]
  | some v => rw [scrapeGo_visited _ _ _ _ _ (hnext v hn)]

/-- **C2**: in every run of the scrape loop no URL is fetched twice — the
trace of fetched URLs has no duplicates and avoids the initial visited
set — and when the current URL is already visited, absent, or its
detected next link is absent or already visited (the start URL included),
the loop stops after the current page without re-fetching. -/
theorem c2_no_refetch :
    ∀ world : String → Page,
      (∀ (fuel : Nat) (visited : List String) (acc : List DF) (url : Option String),
        (scrapeGo world fuel visited acc url).2.Nodup ∧
        ∀ u ∈ (scrapeGo world fuel visited acc url).2, u ∉ visited) ∧
      (∀ (fuel : Nat) (visited : List String) (acc : List DF) (u : String),
        u ∈ visited → scrapeGo world fuel visited acc (some u) = (acc, [])) ∧
      (∀ (fuel : Nat) (visited : List String) (acc : List DF),
        scrapeGo world fuel visited acc none = (acc, [])) ∧
      (∀ (fuel : Nat) (visited : List String) (acc : List DF) (u : String),
        u ∉ visited → u ≠ "" →
        (∀ v, find_next_page_url (world u).anchors u = some v → v ∈ u :: visited) →
        (scrapeGo world (fuel + 1) visited acc (some u)).2 = [u]) :=
  fun world =>
    ⟨scrapeGo_trace_fresh world,
     fun fuel visited acc u h => scrapeGo_visited world fuel visited acc u h,
     fun fuel visited acc => scrapeGo_none world fuel visited acc,
     fun fuel visited acc u hv he hnext =>
       scrapeGo_one_step world fuel visited acc u hv he hnext⟩

/-- Witness for C2: the theorem applied to a concrete world, a visited
start URL (immediate stop) and a fresh URL whose page has no next link
(stop after one fetch). -/
theorem c2_witness :
    (("u" : String) ∈ ["u"] ∧
      scrapeGo (fun _ => ⟨none, []⟩) 3 ["u"] [] (some "u") = ([], [])) ∧
    (scrapeGo (fun _ => ⟨none, []⟩) (2 + 1) [] [] (some "w")).2 = ["w"] :=
  ⟨⟨List.mem_singleton.mpr rfl,
    (c2_no_refetch (fun _ => ⟨none, []⟩)).2.1 3 ["u"] [] "u" (List.mem_singleton.mpr rfl)⟩,
   (c2_no_refetch (fun _ => ⟨none, []⟩)).2.2.2 2 [] [] "w" (by decide) (by decide)
     (fun v hv => Option.noConfusion hv)⟩

/-! ## Claim C6: deduplication by identity columns -/

theorem dropDupGo_eq_firstOccur (key : List String → List String) :
    ∀ (rows : List (List String)) (seen : List (List String)),
      dropDupGo key seen rows = firstOccur key (rows.filter fun r => key r ∉ seen) := by
  intro rows
  induction rows with
  | nil =>
    intro seen
    simp only [List.filter_nil]
    rw [firstOccur]
    rfl
  | cons r rest ih =>
    intro seen
    by_cases h : key r ∈ seen
    · have hd : decide (key r ∉ seen) = false := by simp [h]
      simp only [dropDupGo, if_pos h, List.filter_cons, hd, Bool.false_eq_true, if_false]
      exact ih seen
    · have hd : decide (key r ∉ seen) = true := by simp [h]
      simp only [dropDupGo, if_neg h, List.filter_cons, hd, if_true]
      rw [firstOccur]
      congr 1
      rw [ih (key r :: seen), List.filter_filter]
      congr 1
      apply List.filter_congr
      intro x hx
      rcases Decidable.em (key x ∈ seen) with hs | hs <;>
        rcases Decidable.em (key x = key r) with he | he <;>
          simp [hs, he]

theorem firstOccur_sublist (key : List String → List String) :
    ∀ (n : Nat) (l : List (List String)), l.length ≤ n → (firstOccur key l).Sublist l := by
  intro n
  induction n with
  | zero =>
    intro l hl
    have h0 : l = [] := List.eq_nil_of_length_eq_zero (Nat.le_zero.mp hl)
    subst h0
    rw [firstOccur]
  | succ n ih =>
    intro l hl
    cases l with
    | nil => rw [firstOccur]
    | cons r rest =>
      rw [firstOccur]
      refine List.Sublist.cons₂ r ?_
      refine List.Sublist.trans (ih _ ?_) (List.filter_sublist rest)
      calc (rest.filter fun x => key x ≠ key r).length
          ≤ rest.length := List.length_filter_le _ _
        _ ≤ n := Nat.le_of_succ_le_succ hl

/-- **C6**: after concatenation, the columns whose lowercased name is one
of pos/no/name are the identity columns; when at least one exists, a row
agreeing with an earlier row on exactly those columns is removed and the
first occurrence (with all its other column values) is kept — the result
equals the spec-side `firstOccur` and is a sublist of the input rows; when
no identity column exists, nothing is removed. -/
theorem c6_dedup :
    ∀ big : DF,
      (idCols big.cols = [] → dedupDF big = big) ∧
      (idCols big.cols ≠ [] →
        dedupDF big = ⟨big.cols, firstOccur (keyOf big.cols (idCols big.cols)) big.rows⟩ ∧
        (dedupDF big).rows.Sublist big.rows) := by
  intro big
  constructor
  · intro h
    simp [dedupDF, h]
  · intro h
    have he : dedupDF big =
        ⟨big.cols, firstOccur (keyOf big.cols (idCols big.cols)) big.rows⟩ := by
      simp only [dedupDF, if_neg h]
      congr 1
      rw [dropDupGo_eq_firstOccur]
      congr 1
      simp
    refine ⟨he, ?_⟩
    rw [he]
    exact firstOccur_sublist _ big.rows.length _ le_rfl

/-- Witness for C6: the theorem applied to a concrete frame with identity
columns and a duplicate row. -/
theorem c6_witness :
    idCols (["Pos", "No", "Name", "Club"] : List String) ≠ [] ∧
    dedupDF ⟨["Pos", "No", "Name", "Club"],
        [["1", "42", "X", "A"], ["1", "42", "X", "B"], ["2", "7", "Y", "C"]]⟩ =
      ⟨["Pos", "No", "Name", "Club"],
        firstOccur
          (keyOf ["Pos", "No", "Name", "Club"] (idCols ["Pos", "No", "Name", "Club"]))
          [["1", "42", "X", "A"], ["1", "42", "X", "B"], ["2", "7", "Y", "C"]]⟩ :=
  ⟨by decide,
   ((c6_dedup ⟨["Pos", "No", "Name", "Club"],
       [["1", "42", "X", "A"], ["1", "42", "X", "B"], ["2", "7", "Y", "C"]]⟩).2
     (by decide)).1⟩

/-! ## Claim C8: concatenation with union of columns -/

theorem mem_unionAppend (cs : List String) :
    ∀ (acc : List String) (c : String), c ∈ unionAppend acc cs ↔ c ∈ acc ∨ c ∈ cs := by
  induction cs with
  | nil =>
    intro acc c
    simp [unionAppend]
  | cons c0 cs ih =>
    intro acc c
    have hstep : unionAppend acc (c0 :: cs) =
        unionAppend (if c0 ∈ acc then acc else acc ++ [c0]) cs := rfl
    rw [hstep, ih]
    by_cases h : c0 ∈ acc
    · rw [if_pos h]
      simp only [List.mem_cons]
      constructor
      · rintro (hc | hc)
        · exact Or.inl hc
        · exact Or.inr (Or.inr hc)
      · rintro (hc | rfl | hc)
        · exact Or.inl hc
        · exact Or.inl h
        · exact Or.inr hc
    · rw [if_neg h]
      simp only [List.mem_append, List.mem_singleton, List.mem_cons]
      tauto

theorem mem_concatCols (frames : List DF) (c : String) :
    c ∈ concatCols frames ↔ ∃ f ∈ frames, c ∈ f.cols := by
  suffices h : ∀ acc : List String,
      c ∈ frames.foldl (fun a f => unionAppend a f.cols) acc ↔
        c ∈ acc ∨ ∃ f ∈ frames, c ∈ f.cols by
    simpa [concatCols] using h []
  induction frames with
  | nil =>
    intro acc
    simp
  | cons f fs ih =>
    intro acc
    simp only [List.foldl_cons]
    rw [ih, mem_unionAppend]
    constructor
    · rintro ((hc | hc) | ⟨g, hg, hgc⟩)
      · exact Or.inl hc
      · exact Or.inr ⟨f, List.mem_cons_self f fs, hc⟩
      · exact Or.inr ⟨g, List.mem_cons_of_mem f hg, hgc⟩
    · rintro (hc | ⟨g, hg, hgc⟩)
      · exact Or.inl (Or.inl hc)
      · rcases List.mem_cons.mp hg with rfl | hg
        · exact Or.inl (Or.inr hgc)
        · exact Or.inr ⟨g, hg, hgc⟩

theorem cellVal_map (cols : List String) (g : String → String) (c : String)
    (h : c ∈ cols) : cellVal cols (cols.map g) c = g c := by
  induction cols with
  | nil => cases h
  | cons c0 cs ih =>
    by_cases hc : c0 = c
    · subst hc
      simp [cellVal]
    · have hm : c ∈ cs := by
        rcases List.mem_cons.mp h with h1 | h1
        · exact absurd h1.symm hc
        · exact h1
      simp only [List.map_cons, cellVal, if_neg hc, List.tail_cons]
      exact ih hm

/-- **C8**: concatenating a non-empty list of tables preserves table order
and intra-table row order (the rows are the flattened per-table reindexed
rows, and the row count is the sum of the tables' row counts), the
resulting column set is the union of all column names encountered, and a
row from a table lacking one of those columns carries the empty value
there while present columns keep their values. -/
theorem c8_concat :
    ∀ frames : List DF, frames ≠ [] →
      (∀ c, c ∈ (concatDF frames).cols ↔ ∃ f ∈ frames, c ∈ f.cols) ∧
      (concatDF frames).rows =
        (frames.map fun f => f.rows.map (rowIn (concatCols frames) f)).flatten ∧
      (concatDF frames).rows.length = (frames.map fun f => f.rows.length).sum ∧
      (∀ (f : DF) (r : List String) (c : String), c ∈ concatCols frames →
        (c ∉ f.cols →
          cellVal (concatCols frames) (rowIn (concatCols frames) f r) c = "") ∧
        (c ∈ f.cols →
          cellVal (concatCols frames) (rowIn (concatCols frames) f r) c =
            cellVal f.cols r c)) := by
  intro frames hne
  refine ⟨fun c => mem_concatCols frames c, rfl, ?_, ?_⟩
  · show ((frames.map fun f => f.rows.map (rowIn (concatCols frames) f)).flatten).length = _
    rw [List.length_flatten, List.map_map]
    congr 1
    apply List.map_congr_left
    intro f hf
    simp
  · intro f r c hc
    have hrw : rowIn (concatCols frames) f r =
        (concatCols frames).map fun c => if c ∈ f.cols then cellVal f.cols r c else "" := rfl
    constructor
    · intro hnf
      rw [hrw, cellVal_map _ _ _ hc, if_neg hnf]
    · intro hf
      rw [hrw, cellVal_map _ _ _ hc, if_pos hf]

/-- Witness for C8: the theorem applied to two concrete tables with
different column sets. -/
theorem c8_witness :
    ("Club" ∈ concatCols [⟨["Pos", "Name"], [["1", "a"]]⟩, ⟨["Name", "Club"], [["b", "c"]]⟩]) ∧
    cellVal (concatCols [⟨["Pos", "Name"], [["1", "a"]]⟩, ⟨["Name", "Club"], [["b", "c"]]⟩])
        (rowIn (concatCols [⟨["Pos", "Name"], [["1", "a"]]⟩, ⟨["Name", "Club"], [["b", "c"]]⟩])
          ⟨["Pos", "Name"], [["1", "a"]]⟩ ["1", "a"]) "Club" = "" :=
  ⟨by decide,
   ((c8_concat [⟨["Pos", "Name"], [["1", "a"]]⟩, ⟨["Name", "Club"], [["b", "c"]]⟩]
        (by decide)).2.2.2 ⟨["Pos", "Name"], [["1", "a"]]⟩ ["1", "a"] "Club"
      (by decide)).1 (by decide)⟩

/-! ## Claim C9: the column normalizer is idempotent -/

theorem map_cellVal_self (cols : List String) :
    ∀ r : List String, cols.Nodup → r.length = cols.length →
      (cols.map fun c => cellVal cols r c) = r := by
  induction cols with
  | nil =>
    intro r _ hlen
    simp only [List.length_nil] at hlen
    simp [List.eq_nil_of_length_eq_zero hlen]
  | cons c cs ih =>
    intro r hnd hlen
    cases r with
    | nil => simp at hlen
    | cons v vs =>
      simp only [List.map_cons]
      congr 1
      · simp [cellVal]
      · have hcs : (cs.map fun x => cellVal (c :: cs) (v :: vs) x) =
            cs.map fun x => cellVal cs vs x := by
          apply List.map_congr_left
          intro x hx
          have hne : ¬(c = x) := fun he => (List.nodup_cons.mp hnd).1 (he ▸ hx)
          simp [cellVal, hne]
        rw [hcs]
        exact ih vs (List.nodup_cons.mp hnd).2 (by simpa using hlen)

theorem foldl_addCol_id (l : List String) :
    ∀ d : DF, (∀ c ∈ l, c ∈ d.cols) →
      l.foldl
        (fun d c => if c ∈ d.cols then d else ⟨d.cols ++ [c], d.rows.map (· ++ [""])⟩)
        d = d := by
  induction l with
  | nil => intro d _; rfl
  | cons c cs ih =>
    intro d h
    simp only [List.foldl_cons, if_pos (h c (List.mem_cons_self c cs))]
    exact ih d fun x hx => h x (List.mem_cons_of_mem c hx)

theorem addMissing_id (df : DF) (h : ∀ c ∈ REQUESTED_COLUMNS, c ∈ df.cols) :
    addMissing df = df :=
  foldl_addCol_id REQUESTED_COLUMNS df h

theorem mem_foldl_addCol (l : List String) :
    ∀ (d : DF) (c : String), c ∈ l ∨ c ∈ d.cols →
      c ∈ (l.foldl
        (fun d c => if c ∈ d.cols then d else ⟨d.cols ++ [c], d.rows.map (· ++ [""])⟩)
        d).cols := by
  induction l with
  | nil =>
    intro d c h
    rcases h with h | h
    · cases h
    · exact h
  | cons c0 cs ih =>
    intro d c h
    simp only [List.foldl_cons]
    apply ih
    by_cases h0 : c0 ∈ d.cols
    · rw [if_pos h0]
      rcases h with h | h
      · rcases List.mem_cons.mp h with rfl | h
        · exact Or.inr h0
        · exact Or.inl h
      · exact Or.inr h
    · rw [if_neg h0]
      rcases h with h | h
      · rcases List.mem_cons.mp h with rfl | h
        · exact Or.inr (by simp)
        · exact Or.inl h
      · exact Or.inr (by simp [h])

theorem mem_addMissing (df : DF) (c : String) (hc : c ∈ REQUESTED_COLUMNS) :
    c ∈ (addMissing df).cols :=
  mem_foldl_addCol REQUESTED_COLUMNS df c (Or.inl hc)

theorem select_and_order_fix (df : DF)
    (hcols : df.cols = REQUESTED_COLUMNS)
    (hrect : ∀ r ∈ df.rows, r.length = REQUESTED_COLUMNS.length)
    (hname : ∀ r ∈ df.rows,
      cleanName (cellVal df.cols r "Name") = cellVal df.cols r "Name") :
    select_and_order_columns df = df := by
  have hmem : ("Name" : String) ∈ REQUESTED_COLUMNS := by decide
  obtain ⟨cols, rows⟩ := df
  have hc : cols = REQUESTED_COLUMNS := hcols
  subst hc
  have hrect2 : ∀ r ∈ rows, r.length = REQUESTED_COLUMNS.length := hrect
  have hname2 : ∀ r ∈ rows,
      cleanName (cellVal REQUESTED_COLUMNS r "Name") =
        cellVal REQUESTED_COLUMNS r "Name" := hname
  have h1 : addMissing ⟨REQUESTED_COLUMNS, rows⟩ = ⟨REQUESTED_COLUMNS, rows⟩ :=
    addMissing_id _ fun c hc2 => hc2
  have hpoint : ∀ r ∈ rows, nameUpd REQUESTED_COLUMNS r = r := by
    intro r hr
    show r.set (colIdx "Name" REQUESTED_COLUMNS)
        (cleanName (r.getD (colIdx "Name" REQUESTED_COLUMNS) "")) = r
    have hv : cleanName (r.getD (colIdx "Name" REQUESTED_COLUMNS) "") =
        r.getD (colIdx "Name" REQUESTED_COLUMNS) "" := by
      rw [← cellVal_getD _ _ _ hmem]
      exact hname2 r hr
    rw [hv]
    exact getD_set_self r _ ""
  have hmem2 : "Name" ∈ (DF.mk REQUESTED_COLUMNS rows).cols := hmem
  have h2 : normalize_name_column ⟨REQUESTED_COLUMNS, rows⟩ =
      ⟨REQUESTED_COLUMNS, rows⟩ := by
    unfold normalize_name_column
    split
    · exact congrArg (DF.mk REQUESTED_COLUMNS)
        ((List.map_congr_left hpoint).trans (List.map_id rows))
    · rename_i hno
      exact absurd hmem2 hno
  unfold select_and_order_columns
  rw [h1]
  dsimp only
  rw [h2]
  have hp2 : ∀ r ∈ rows,
      (REQUESTED_COLUMNS.map fun c => cellVal REQUESTED_COLUMNS r c) = r := fun r hr =>
    map_cellVal_self REQUESTED_COLUMNS r (by decide) (hrect2 r hr)
  exact congrArg (DF.mk REQUESTED_COLUMNS)
    ((List.map_congr_left hp2).trans (List.map_id rows))

/-- **C9**: the column normalizer is idempotent — applying
`select_and_order_columns` twice yields the same result as applying it
once, and on a ResultSet that is already normalized (exactly the
`REQUESTED_COLUMNS` in order, rectangular rows, every Name value fixed by
the cleanup, i.e. trimmed and free of double-whitespace runs) it is the
identity. -/
theorem select_unfold (df : DF) : select_and_order_columns df =
    ⟨REQUESTED_COLUMNS, (normalize_name_column (addMissing df)).rows.map fun r =>
      REQUESTED_COLUMNS.map (cellVal (normalize_name_column (addMissing df)).cols r)⟩ := rfl

theorem normalize_unfold (df1 : DF) (hn : "Name" ∈ df1.cols) :
    normalize_name_column df1 = ⟨df1.cols, df1.rows.map (nameUpd df1.cols)⟩ := by
  unfold normalize_name_column
  split
  · rfl
  · rename_i hno
    exact absurd hn hno

theorem c9_normalizer_idempotent :
    (∀ df : DF, select_and_order_columns (select_and_order_columns df) =
        select_and_order_columns df) ∧
    (∀ df : DF, df.cols = REQUESTED_COLUMNS →
        (∀ r ∈ df.rows, r.length = REQUESTED_COLUMNS.length) →
        (∀ r ∈ df.rows,
          cleanName (cellVal df.cols r "Name") = cellVal df.cols r "Name") →
        select_and_order_columns df = df) := by
  have hmem : ("Name" : String) ∈ REQUESTED_COLUMNS := by decide
  refine ⟨?_, select_and_order_fix⟩
  intro df
  have hn : "Name" ∈ (addMissing df).cols := mem_addMissing df "Name" hmem
  obtain ⟨dfA, hA⟩ : ∃ dfA, addMissing df = dfA := ⟨_, rfl⟩
  rw [hA] at hn
  rw [select_unfold df, hA, normalize_unfold _ hn]
  dsimp only
  apply select_and_order_fix
  · rfl
  · intro r hr
    rcases List.mem_map.mp hr with ⟨r1, _, rfl⟩
    exact List.length_map _ _
  · intro R hR
    show cleanName (cellVal REQUESTED_COLUMNS R "Name") = cellVal REQUESTED_COLUMNS R "Name"
    rcases List.mem_map.mp hR with ⟨r2, hr2, rfl⟩
    rcases List.mem_map.mp hr2 with ⟨r0, _, rfl⟩
    rw [cellVal_map _ _ _ hmem]
    exact nameUpd_clean _ _

/-- Witness for C9: the theorem's identity conjunct applied to a concrete
already-normalized frame. -/
theorem c9_witness :
    select_and_order_columns ⟨REQUESTED_COLUMNS,
        [["1", "2", "Ann", "", "", "", "", "", "", "", "", "", "", "", "", "", ""]]⟩ =
      ⟨REQUESTED_COLUMNS,
        [["1", "2", "Ann", "", "", "", "", "", "", "", "", "", "", "", "", "", ""]]⟩ :=
  c9_normalizer_idempotent.2 _ rfl (by decide) (by decide)

/-! ## Claim C5: exit behavior of the main entry point -/

theorem dfEmpty_stripColsDF (df : DF) : dfEmpty (stripColsDF df) = dfEmpty df := by
  unfold dfEmpty stripColsDF
  cases df.cols <;> cases df.rows <;> rfl

theorem dfEmpty_false_of {big : DF} (hr : big.rows ≠ []) (hc : big.cols ≠ []) :
    dfEmpty big = false := by
  obtain ⟨a, l, h1⟩ := List.exists_cons_of_ne_nil hr
  obtain ⟨b, m, h2⟩ := List.exists_cons_of_ne_nil hc
  unfold dfEmpty
  rw [h1, h2]
  rfl

theorem scrapeGo_frames_nonempty (world : String → Page) :
    ∀ (fuel : Nat) (visited : List String) (acc : List DF) (url : Option String),
      (∀ df ∈ acc, dfEmpty df = false) →
      ∀ df ∈ (scrapeGo world fuel visited acc url).1, dfEmpty df = false := by
  intro fuel
  induction fuel with
  | zero =>
    intro visited acc url hacc
    simpa [scrapeGo] using hacc
  | succ n ih =>
    intro visited acc url hacc
    cases url with
    | none => simpa [scrapeGo] using hacc
    | some u =>
      by_cases he : u = ""
      · simpa [scrapeGo, he] using hacc
      · by_cases hv : u ∈ visited
        · simpa [scrapeGo, he, hv] using hacc
        · simp only [scrapeGo, if_neg he, if_neg hv]
          apply ih
          intro df hdf
          cases hx : extract_results_table (world u).tables with
          | none =>
            rw [hx] at hdf
            exact hacc df hdf
          | some df0 =>
            rw [hx] at hdf
            by_cases hemp : dfEmpty df0 = true
            · simp only [hemp, if_true] at hdf
              exact hacc df hdf
            · simp only [hemp, if_false, Bool.false_eq_true] at hdf
              rcases List.mem_append.mp hdf with hdf | hdf
              · exact hacc df hdf
              · rw [List.mem_singleton.mp hdf, dfEmpty_stripColsDF]
                exact Bool.not_eq_true _ ▸ hemp

theorem dedupDF_not_empty {big : DF} (hr : big.rows ≠ []) (hc : big.cols ≠ []) :
    dfEmpty (dedupDF big) = false := by
  simp only [dedupDF]
  split
  · exact dfEmpty_false_of hr hc
  · apply dfEmpty_false_of
    · obtain ⟨a, l, h1⟩ := List.exists_cons_of_ne_nil hr
      show dropDupGo _ [] big.rows ≠ []
      rw [h1]
      simp [dropDupGo]
    · exact hc

theorem concatDF_parts {frames : List DF} (hne : frames ≠ [])
    (hall : ∀ df ∈ frames, dfEmpty df = false) :
    (concatDF frames).rows ≠ [] ∧ (concatDF frames).cols ≠ [] := by
  obtain ⟨f0, fs, rfl⟩ := List.exists_cons_of_ne_nil hne
  have h0 := hall f0 (List.mem_cons_self f0 fs)
  have hrows0 : f0.rows ≠ [] := by
    intro hcon
    unfold dfEmpty at h0
    rw [hcon] at h0
    simp at h0
  have hcols0 : f0.cols ≠ [] := by
    intro hcon
    unfold dfEmpty at h0
    rw [hcon] at h0
    simp at h0
  constructor
  · show ((f0 :: fs).map fun f => f.rows.map (rowIn (concatCols (f0 :: fs)) f)).flatten ≠ []
    intro hcon
    rw [List.flatten_eq_nil_iff] at hcon
    have h1 := hcon (f0.rows.map (rowIn (concatCols (f0 :: fs)) f0)) (by simp)
    rcases List.exists_cons_of_ne_nil hrows0 with ⟨a, l, h2⟩
    rw [h2] at h1
    simp at h1
  · rcases List.exists_cons_of_ne_nil hcols0 with ⟨c, cs, h1⟩
    have hcmem : c ∈ concatCols (f0 :: fs) :=
      (mem_concatCols _ c).mpr
        ⟨f0, List.mem_cons_self _ _, by rw [h1]; exact List.mem_cons_self _ _⟩
    intro hcon
    show False
    rw [show (concatDF (f0 :: fs)).cols = concatCols (f0 :: fs) from rfl] at hcon
    rw [hcon] at hcmem
    cases hcmem

/-- **C5**: when the scrape loop accumulated no non-empty table, `main`
exits with code 1, prints the diagnostic to standard error, and never
invokes the writer; otherwise it hands the normalized frame to the writer,
prints the confirmation with row count and destination to standard output,
and exits with code 0. -/
theorem c5_main_behavior :
    ∀ (world : String → Page) (fuel : Nat) (url outFile : String),
      ((scrapeGo world fuel [] [] (some url)).1 = [] →
        main_run world fuel url outFile =
          ⟨1, none, some "No data found: could not locate a suitable results table.",
            none⟩) ∧
      ((scrapeGo world fuel [] [] (some url)).1 ≠ [] →
        main_run world fuel url outFile =
          ⟨0, some ("Wrote " ++
              toString
                (select_and_order_columns (scrape_all_pages world fuel url)).rows.length ++
              " rows to " ++ outFile),
            none, some (select_and_order_columns (scrape_all_pages world fuel url))⟩) := by
  intro world fuel url outFile
  constructor
  · intro h
    have hsc : scrape_all_pages world fuel url = ⟨[], []⟩ := by
      simp only [scrape_all_pages]
      rw [h]
      rfl
    simp only [main_run]
    rw [hsc]
    rfl
  · intro h
    have hall : ∀ df ∈ (scrapeGo world fuel [] [] (some url)).1, dfEmpty df = false :=
      scrapeGo_frames_nonempty world fuel [] [] (some url) (by intro df hdf; cases hdf)
    have hparts := concatDF_parts h hall
    have hded :
        dfEmpty (dedupDF (concatDF (scrapeGo world fuel [] [] (some url)).1)) = false :=
      dedupDF_not_empty hparts.1 hparts.2
    have hsc : scrape_all_pages world fuel url =
        dedupDF (concatDF (scrapeGo world fuel [] [] (some url)).1) := by
      simp only [scrape_all_pages]
      split
      · rename_i hemp
        exact absurd (List.isEmpty_iff.mp hemp) h
      · rfl
    simp only [main_run]
    rw [hsc, if_neg (by rw [hded]; simp)]

/-- Witness for C5: the theorem applied to a concrete world with no
tables anywhere (exit 1, nothing written) and to a concrete world with
one results table (exit 0, confirmation message, frame written). -/
theorem c5_witness :
    ((scrapeGo (fun _ => ⟨none, []⟩) 3 [] [] (some "u")).1 = [] ∧
      main_run (fun _ => ⟨none, []⟩) 3 "u" "o.csv" =
        ⟨1, none, some "No data found: could not locate a suitable results table.",
          none⟩) ∧
    ((scrapeGo (fun _ => ⟨some [⟨["Pos", "Name"], [["1", "Ann"]]⟩], []⟩) 3 [] []
        (some "u")).1 ≠ [] ∧
      main_run (fun _ => ⟨some [⟨["Pos", "Name"], [["1", "Ann"]]⟩], []⟩) 3 "u" "o.csv" =
        ⟨0, some ("Wrote " ++
            toString
              (select_and_order_columns
                (scrape_all_pages (fun _ => ⟨some [⟨["Pos", "Name"], [["1", "Ann"]]⟩], []⟩)
                  3 "u")).rows.length ++
            " rows to " ++ "o.csv"),
          none,
          some (select_and_order_columns
            (scrape_all_pages (fun _ => ⟨some [⟨["Pos", "Name"], [["1", "Ann"]]⟩], []⟩)
              3 "u"))⟩) :=
  ⟨⟨by decide, (c5_main_behavior (fun _ => ⟨none, []⟩) 3 "u" "o.csv").1 (by decide)⟩,
   ⟨by decide,
    (c5_main_behavior (fun _ => ⟨some [⟨["Pos", "Name"], [["1", "Ann"]]⟩], []⟩) 3 "u"
        "o.csv").2 (by decide)⟩⟩

end ResultDownloader
